import Mathlib

/-!
Verification of the statement-analysis engine and metadata-defaults checker of
`check-problems.py` (a style checker for competitive-programming problem
packages).  The Python source is shallowly embedded below: every definition is
translated from the source file (line numbers refer to `src/check-problems.py`),
machine strings are Lean `String`s, Python dicts are association structures,
Python exceptions are explicit `Option PyErr` / `Except PyErr` results.
-/

/-- Python exceptions that the embedded code can raise. -/
inductive PyErr where
| typeError : PyErr
| keyError : PyErr
deriving DecidableEq

/-- Word character of the `re` module patterns (`\w`): alphanumeric or
underscore (the source compiles with `re.U`; the inputs relevant here are
ASCII). -/
def isWordChar (c : Char) : Bool := c.isAlphanum || c = '_'

/-- Whitespace (`\s`) for the tokenizer regex. -/
def isSpaceChar (c : Char) : Bool := c.isWhitespace

/-- The single-quote character used by Python list repr. -/
def quoteChar : Char := Char.ofNat 39

/-- Python repr of a string (no escaping needed for the words handled here). -/
def pyRepr (s : String) : String :=
  String.singleton quoteChar ++ s ++ String.singleton quoteChar

/-- Separator of Python list repr. -/
def commaSpace : String := ", "

/-- Python repr of a list of strings, e.g. a sorted set of words. -/
def pyReprList (l : List String) : String :=
  "[" ++ String.intercalate commaSpace (l.map pyRepr) ++ "]"

/-- Lexicographic code-point order on character lists (the order of Python
string comparison). -/
def charListLt : List Char → List Char → Bool
| [], [] => false
| [], _ :: _ => true
| _ :: _, [] => false
| a :: as, b :: bs => decide (a.toNat < b.toNat) || (a = b && charListLt as bs)

/-- Python string `<`. -/
def strLtB (a b : String) : Bool := charListLt a.data b.data

/-- Insert a string into a sorted list (ascending lexicographic order, as
Python `sorted` on strings). -/
def insertStr (x : String) : List String → List String
| [] => [x]
| y :: ys => if strLtB x y then x :: y :: ys else y :: insertStr x ys

/-- Insertion sort on strings; models Python `sorted(...)` applied to a set of
distinct strings. -/
def sortedList : List String → List String
| [] => []
| x :: xs => insertStr x (sortedList xs)

/-!
Issue log (lines 82-89).  `_ERRORS` is a dict from key to list of messages;
`warning`/`error` append.  We model the log as a flat list of
(key, message) pairs in append order; `_log` appends one pair.

Crucially, `warning` is declared as `warning = lambda key, message: ...`, a
TWO-parameter lambda.  A Python call whose number of positional arguments
differs from the parameter count raises `TypeError` before the body runs.
`warningCall` models calling `warning` with an arbitrary positional argument
list. -/
def warningCall (log : List (String × String)) (args : List String) :
    List (String × String) × Option PyErr :=
  match args with
  | [key, message] => (log ++ [(key, message)], none)
  | _ => (log, some PyErr.typeError)

/-!
## Tokenizer (line 246, `plain_text_word_re = r"\b\w([^\s]*\w)?\b"`)

`finditer` of this pattern produces, for each maximal whitespace-free run of
the input that contains at least one word character, exactly one match: the
segment of that run extending from its first word character to its last word
character (the leading `\b\w` forces the match to start at a word character
preceded by a non-word character or the string start; the greedy
`([^\s]*\w)?\b` extends the match to the last word character of the run, which
is necessarily followed by a non-word character or the end).  After that match
the rest of the run holds no word character, so the run yields no further
match.  We embed this as: split into maximal non-space runs, then trim each
run to its first-through-last word character.
-/

/-- Split into maximal runs of non-whitespace characters (accumulator holds
the current run reversed). -/
def splitRunsAux : List Char → List Char → List (List Char)
| [], acc => match acc with
  | [] => []
  | _ :: _ => [acc.reverse]
| c :: cs, acc =>
  if isSpaceChar c then
    match acc with
    | [] => splitRunsAux cs []
    | _ :: _ => acc.reverse :: splitRunsAux cs []
  else splitRunsAux cs (c :: acc)

/-- Maximal whitespace-free runs of a character list. -/
def splitRuns (s : List Char) : List (List Char) := splitRunsAux s []

/-- Trim a whitespace-free run to the segment from its first word character to
its last word character; `none` when the run has no word character. -/
def trimRun (r : List Char) : Option (List Char) :=
  let r1 := r.dropWhile (fun c => ! isWordChar c)
  let r2 := (r1.reverse.dropWhile (fun c => ! isWordChar c)).reverse
  if r2.isEmpty then none else some r2

/-- Matches of `plain_text_word_re` over a character list, in order. -/
def tokensL (s : List Char) : List (List Char) := (splitRuns s).filterMap trimRun

/-- Matches of `plain_text_word_re` over a string (the token list whose set is
`words` in `_check_plain_text`, line 251). -/
def tokens (s : String) : List String := (tokensL s.data).map String.mk

/-- Join a list of tokens with single spaces (the rejoining step of the
idempotence property). -/
def joinTokensL : List (List Char) → List Char
| [] => []
| [t] => t
| t :: ts => t ++ ' ' :: joinTokensL ts

/-- Join the set (deduplicated list) of tokens of `s` with single spaces. -/
def rejoinTokens (s : String) : String :=
  String.mk (joinTokensL ((tokensL s.data).dedup))

/-!
## Plain-text detector (`_check_plain_text`, lines 250-257)
-/

/-- Truthiness of `spelling_dictionary` in `if spelling_dictionary:`:
`None` and the empty set are falsy. -/
def truthyDict : Option (List String) → Bool
| none => false
| some [] => false
| some (_ :: _) => true

/-- Test of `missing_math_mode_re = r"^[0-9.,]+"` via `.match` (line 247):
succeeds exactly when the word starts with a digit, dot or comma. -/
def startsMissingMath (w : String) : Bool :=
  match w.data with
  | [] => false
  | c :: _ => c.isDigit || c = '.' || c = ','

/-- Body of `_check_plain_text` (lines 250-257): tokenize `text`, and when a
(non-empty) dictionary is present classify each word outside the dictionary.
Returns (misspelled words, missing-math-mode words) as deduplicated lists
(the source accumulates Python sets). -/
def checkPlainText (spellingDictionary : Option (List String)) (text : String) :
    List String × List String :=
  let words := (tokens text).dedup
  if truthyDict spellingDictionary then
    let dict := spellingDictionary.getD []
    let unknown := words.filter (fun w => ! dict.contains w)
    (unknown.filter (fun w => ! startsMissingMath w), unknown.filter startsMissingMath)
  else ([], [])

/-!
## Math-text detector (`_check_math_text`, lines 259-261) with
`incorrect_math_re = r"\b([0-9]+[0-9,]*,[0-9]+|[0-9]{4,})\b"` (line 248).

`finditer` semantics embedded directly: at each position whose previous
character is not a word character and whose character is a digit, the first
alternative matches the longest prefix of the digit-or-comma run that starts
and ends with a digit, contains a comma, and is followed by a non-word
character or the end; failing that, the second alternative matches a maximal
digit run of length at least 4 followed by a non-word character or the end.
After a match the scan resumes at the first position past it.
-/

/-- Digit-or-comma class `[0-9,]`. -/
def isDigitComma (c : Char) : Bool := c.isDigit || c = ','

/-- Word-boundary condition before the match (previous character, `none` at
the string start). -/
def prevBoundaryOK : Option Char → Bool
| none => true
| some c => ! isWordChar c

/-- Word-boundary condition after the match (following character, `none` at
the string end). -/
def charAfterOK : Option Char → Bool
| none => true
| some c => ! isWordChar c

/-- Whether a list ends with a digit. -/
def lastIsDigit (l : List Char) : Bool :=
  match l.getLast? with
  | some c => c.isDigit
  | none => false

/-- Validity of a first-alternative match of length `j` at the current
position of `s` (with digit-comma run `R`). -/
def aValidLen (s R : List Char) (j : Nat) : Bool :=
  decide (0 < j) && lastIsDigit (R.take j) && (R.take j).any (fun c => c = ',')
    && charAfterOK s[j]?

/-- Length of the `incorrect_math_re` match starting exactly at the current
position of `s` (0 when there is no match there). -/
def imMatchLen (prev : Option Char) (s : List Char) : Nat :=
  match s with
  | [] => 0
  | c :: _ =>
    if prevBoundaryOK prev && c.isDigit then
      let R := s.takeWhile isDigitComma
      let aLen := (List.range (R.length + 1)).foldl
        (fun acc j => if aValidLen s R j then j else acc) 0
      if aLen ≠ 0 then aLen
      else
        let D := s.takeWhile Char.isDigit
        if decide (4 ≤ D.length) && charAfterOK s[D.length]? then D.length else 0
    else 0

/-- Scan for successive non-overlapping matches (fuel-indexed; the fuel is
initialized to the string length, which bounds the number of steps). -/
def scanIMAux : Nat → Option Char → List Char → List (List Char)
| 0, _, _ => []
| Nat.succ fuel, prev, s =>
  match s with
  | [] => []
  | c :: rest =>
    let L := imMatchLen prev (c :: rest)
    if L = 0 then scanIMAux fuel (some c) rest
    else ((c :: rest).take L) :: scanIMAux fuel (((c :: rest).take L).getLast?) ((c :: rest).drop L)

/-- All matches of `incorrect_math_re` over a character list, in order. -/
def scanIM (s : List Char) : List (List Char) := scanIMAux s.length none s

/-- Body of `_check_math_text`: the set (deduplicated list) of matches of
`incorrect_math_re` over the math text. -/
def checkMathText (text : String) : List String :=
  ((scanIM text.data).map String.mk).dedup

/-!
## Report messages of `_parse_for_tex_errors` (lines 316-321)
-/

/-- Message `misspelled words: [...]` (line 317). -/
def msgMisspelled (l : List String) : String :=
  "misspelled words: " ++ pyReprList l

/-- Message `incorrect math: [...] (use ...)` (line 319). -/
def msgIncorrectMath (l : List String) : String :=
  "incorrect math: " ++ pyReprList l ++ " (use `\\,` (backslash comma) to separate thousands groups)"

/-- Message `missing math mode: [...]` (line 321). -/
def msgMissingMath (l : List String) : String :=
  "missing math mode: " ++ pyReprList l

/-- The tail of `_parse_for_tex_errors` (lines 313-321): run both text
detectors on the classified streams and emit the per-document findings (in
source order: misspelled, incorrect math, missing math mode). -/
def textDetectorWarnings (spellingDictionary : Option (List String))
    (filename plainText mathText : String) : List (String × String) :=
  let cp := checkPlainText spellingDictionary plainText
  let incorrectMath := checkMathText mathText
  (if cp.1.isEmpty then [] else [(filename, msgMisspelled (sortedList cp.1))]) ++
  (if incorrectMath.isEmpty then [] else [(filename, msgIncorrectMath (sortedList incorrectMath))]) ++
  (if cp.2.isEmpty then [] else [(filename, msgMissingMath (sortedList cp.2))])

/-!
## Tree classifier (`_dfs`, lines 263-298)

A parsed document node is either a plasTeX `Text` node (a string payload,
`isinstance(node, plasTeX.DOM.Text)`) or any other node carrying a
`nodeName` and an ordered child list (`bgroup` = group, `math` = math
environment, anything else generic).  The child list is a mutually inductive
list so that the traversal is structural.
-/

mutual
inductive DNode where
| text : String → DNode
| node : String → DNodeList → DNode
inductive DNodeList where
| nil : DNodeList
| cons : DNode → DNodeList → DNodeList
end

mutual
/-- The body of `_dfs` for a node: returns the (plain, math) lists of pieces
appended by the subtree, in append order.  Mirrors lines 268-296: in math
mode every node appends its `text` (the lowercased payload for a `Text` node,
`nodeName + ' '` otherwise) to `math_text`; outside math mode a `Text` node
appends its lowercased payload to `plain_text`, a `bgroup` node appends one
space to both streams, a `math` node appends one space to `math_text` and
switches the context to math mode; children are visited with the (possibly
updated) context. -/
def dfs : DNode → Bool → List String × List String
| .text s, inMath => if inMath then ([], [s.toLower]) else ([s.toLower], [])
| .node nm cs, inMath =>
    let own : List String × List String :=
      if inMath then ([], [nm ++ " "])
      else if nm = "bgroup" then ([" "], [" "])
      else if nm = "math" then ([], [" "])
      else ([], [])
    let inM := inMath || nm = "math"
    let r := dfsList cs inM
    (own.1 ++ r.1, own.2 ++ r.2)
/-- The `for child in node.childNodes` loop of `_dfs`. -/
def dfsList : DNodeList → Bool → List String × List String
| .nil, _ => ([], [])
| .cons c cs, b =>
    let r1 := dfs c b
    let r2 := dfsList cs b
    (r1.1 ++ r2.1, r1.2 ++ r2.2)
end

mutual
/-- Payloads of all `Text` nodes of a subtree, in document order. -/
def textPayloads : DNode → List String
| .text s => [s]
| .node _ cs => textPayloadsList cs
def textPayloadsList : DNodeList → List String
| .nil => []
| .cons c cs => textPayloads c ++ textPayloadsList cs
end

mutual
/-- Names of all non-`Text` nodes of a subtree. -/
def nodeNames : DNode → List String
| .text _ => []
| .node nm cs => nm :: nodeNamesList cs
def nodeNamesList : DNodeList → List String
| .nil => []
| .cons c cs => nodeNames c ++ nodeNamesList cs
end

/-- The failure message constant of line 306. -/
def strCouldNotParse : String := "could not parse tex"

/-- `_parse_for_tex_errors` (lines 228-321), given the outcome of
`tex.parse()`: `none` models the external parser raising (the `except`
branch, lines 305-307, calls `warning(filename, 'could not parse tex', e)` —
three positional arguments to the two-parameter lambda `warning`); `some
document` models a successful parse, after which the tree is classified and
the detectors run, appending the findings to the log.  The second component
is the exception escaping the function, if any. -/
def parseForTexErrors (parsed : Option DNode) (spellingDictionary : Option (List String))
    (filename exnRepr : String) (log : List (String × String)) :
    List (String × String) × Option PyErr :=
  match parsed with
  | none => warningCall log [filename, strCouldNotParse, exnRepr]
  | some document =>
      let streams := dfs document false
      (log ++ textDetectorWarnings spellingDictionary filename
        (String.join streams.1) (String.join streams.2), none)

/-!
## Line-level stylistic checks (`_check_statement`, lines 200-225)

Each check is `re.compile(r'^[^%]*' + p, re.I | re.U).search` over one raw
source line; a match exists iff for some prefix length `j` whose characters
are all distinct from the percent sign, the pattern `p` matches starting at
position `j`.  The concrete patterns are embedded as deterministic matchers
(their greedy sub-expressions never need backtracking: each starred class
excludes the character required next).  Matching is case-insensitive
(`re.I`), hence the `toLower` in `eatLit`.
-/

/-- The class `[0-9.]` of the width multiplier. -/
def digitDot (c : Char) : Bool := c.isDigit || c = '.'

/-- The class `[- ]` between `floating` and `point`. -/
def dashSpace (c : Char) : Bool := c = '-' || c = ' '

/-- A character other than the percent sign (the class `[^%]`). -/
def nePct (c : Char) : Bool := c ≠ '%'

/-- Consume a (lowercase) literal pattern case-insensitively, returning the
remaining input on success. -/
def eatLit : List Char → List Char → Option (List Char)
| [], xs => some xs
| _ :: _, [] => none
| p :: ps, x :: xs => if x.toLower = p then eatLit ps xs else none

/-- `\b` after a word character: the next character is absent or non-word. -/
def nonWordAt : List Char → Bool
| [] => true
| c :: _ => ! isWordChar c

/-- Literal `"` of the double-quote check. -/
def quotePat : List Char := [Char.ofNat 34]

/-- Literal `\includegraphics`. -/
def igPat : List Char := "\\includegraphics".toList

/-- Literal `[width=` of the lookahead. -/
def widthPat : List Char := "[width=".toList

/-- Literal backslash of the lookahead. -/
def backslashPat : List Char := ['\\']

/-- Literal `textwidth]`. -/
def twPat : List Char := "textwidth]".toList

/-- Literal `linewidth]`. -/
def lwPat : List Char := "linewidth]".toList

/-- Literal `...`. -/
def dotsPat : List Char := "...".toList

/-- Literal `floating`. -/
def floatingPat : List Char := "floating".toList

/-- Literal `point`. -/
def pointPat : List Char := "point".toList

/-- Literal `\times`. -/
def timesPat : List Char := "\\times".toList

/-- Pattern `"` at the current position. -/
def matchQuote (xs : List Char) : Bool := (eatLit quotePat xs).isSome

/-- The lookahead `\[width=[0-9.]+\\(textwidth|linewidth)\]` of the
includegraphics check. -/
def igLookahead (xs : List Char) : Bool :=
  match eatLit widthPat xs with
  | none => false
  | some r1 =>
    let ds := r1.takeWhile digitDot
    let rest := r1.dropWhile digitDot
    (! ds.isEmpty) &&
      (match eatLit backslashPat rest with
       | some r2 => (eatLit twPat r2).isSome || (eatLit lwPat r2).isSome
       | none => false)

/-- Pattern `\\includegraphics(?!\[width=[0-9.]+\\(textwidth|linewidth)\])`
at the current position. -/
def matchIG (xs : List Char) : Bool :=
  match eatLit igPat xs with
  | some r => ! igLookahead r
  | none => false

/-- Pattern `\.\.\.` at the current position. -/
def matchDots (xs : List Char) : Bool := (eatLit dotsPat xs).isSome

/-- Pattern `floating[- ]*point` at the current position. -/
def matchFloating (xs : List Char) : Bool :=
  match eatLit floatingPat xs with
  | some r => (eatLit pointPat (r.dropWhile dashSpace)).isSome
  | none => false

/-- Pattern `\\times\b` at the current position. -/
def matchTimes (xs : List Char) : Bool :=
  match eatLit timesPat xs with
  | some r => nonWordAt r
  | none => false

/-- Search semantics of `re.compile(r'^[^%]*' + p).search` on one line: the
pattern matches at some position reachable without crossing a percent
sign. -/
def searchNoPct (M : List Char → Bool) (line : List Char) : Bool :=
  (List.range (line.length + 1)).any (fun j =>
    ((line.take j).all nePct) && M (line.drop j))

/-- Message of the double-quote check (line 202). -/
def msgQuotes : String := "uses double-quotes; use two single-quotes instead"

/-- Message of the includegraphics check (line 203). -/
def msgIG : String := "bad includegraphics width; use a multiplier (e.g. width=0.9\\textwidth) or HTML layout can break"

/-- Message of the three-periods check (line 204). -/
def msgDots : String := "use \\ldots rather than three periods"

/-- Message of the floating-point check (line 205). -/
def msgFloating : String := "use \"real\" rather than \"floating-point\""

/-- Message of the times check (line 206). -/
def msgTimes : String := "use \\cdot instead of \\times for multiplication"

/-- The `_regex_checks` list (lines 201-207), in source order. -/
def regexChecks : List ((List Char → Bool) × String) :=
  [(searchNoPct matchQuote, msgQuotes),
   (searchNoPct matchIG, msgIG),
   (searchNoPct matchDots, msgDots),
   (searchNoPct matchFloating, msgFloating),
   (searchNoPct matchTimes, msgTimes)]

/-- The per-document loop of `_check_statement` (lines 223-225): for each
check, a single finding is emitted iff some line matches. -/
def checkStatementLines (lines : List (List Char)) : List String :=
  regexChecks.filterMap (fun pr => if lines.any pr.1 then some pr.2 else none)

/-- Truncate a line at its first unescaped percent sign (a percent sign not
immediately preceded by a backslash); the accumulator is the previous
character. -/
def truncAtUnescapedPctAux : Option Char → List Char → List Char
| _, [] => []
| prev, c :: rest =>
    if c = '%' && prev ≠ some '\\' then []
    else c :: truncAtUnescapedPctAux (some c) rest

/-- Truncate a line at its first unescaped percent sign. -/
def truncAtUnescapedPct (line : List Char) : List Char :=
  truncAtUnescapedPctAux none line

/-!
## Metadata defaults checker (`_check_metadata_recursive`, lines 175-192)

YAML values are either scalar leaves (`None`, booleans, integers, strings)
or string-keyed mappings; the mapping entries are a mutually inductive list
so that the checker is structural.  Python `in` and indexing on these values
are embedded with their exception behavior: `k in d` on a dict is a key test,
on a string it is SUBSTRING containment, on any other scalar it raises
`TypeError`; `d[k]` with a string key is a lookup on a dict and raises
`TypeError` on a string or other scalar.
-/

inductive Val where
| vnone : Val
| vbool : Bool → Val
| vint : Int → Val
| vstr : String → Val
deriving DecidableEq

mutual
inductive Meta where
| val : Val → Meta
| dict : MetaEntries → Meta
inductive MetaEntries where
| nil : MetaEntries
| cons : String → Meta → MetaEntries → MetaEntries
end

/-- Key membership in a mapping (Python `k in dict`). -/
def entriesHasKey : MetaEntries → String → Bool
| .nil, _ => false
| .cons k _ rest, key => k = key || entriesHasKey rest key

/-- Key lookup in a mapping (Python `dict[k]`, keys unique). -/
def entriesLookup : MetaEntries → String → Option Meta
| .nil, _ => none
| .cons k v rest, key => if k = key then some v else entriesLookup rest key

/-- Whether `needle` occurs as a prefix of `hay`. -/
def startsWithChars : List Char → List Char → Bool
| [], _ => true
| _ :: _, [] => false
| a :: as, b :: bs => a = b && startsWithChars as bs

/-- Whether `needle` occurs as a contiguous substring of `hay` (Python
`s1 in s2` on strings). -/
def containsSub (needle : List Char) : List Char → Bool
| [] => needle.isEmpty
| c :: t => startsWithChars needle (c :: t) || containsSub needle t

/-- Python `key in m`: key test on a dict, substring test on a string,
`TypeError` on any other value. -/
def pyContains (key : String) (m : Meta) : Except PyErr Bool :=
  match m with
  | .dict es => .ok (entriesHasKey es key)
  | .val (.vstr s) => .ok (containsSub key.data s.data)
  | .val _ => .error PyErr.typeError

/-- Python `m[key]` with a string key: lookup on a dict (`KeyError` when
absent), `TypeError` on a string or other scalar. -/
def pyIndex (m : Meta) (key : String) : Except PyErr Meta :=
  match m with
  | .dict es =>
      match entriesLookup es key with
      | some v => .ok v
      | none => .error PyErr.keyError
  | .val _ => .error PyErr.typeError

/-- The `_WARN_ABOUT_SETTINGS` watch-list (lines 164-173). -/
def warnAboutSettings : List String :=
  ["validation", "type", "limits/memory", "limits/output",
   "limits/compilation_time", "limits/validation_time",
   "limits/validation_memory", "limits/validation_output"]

/-- `problem + '/problem.yaml'` (line 178). -/
def problemYaml (problem : String) : String := problem ++ "/problem.yaml"

/-- `full_key = path + ('/' if path else '') + k` (line 185). -/
def fullKeyOf (path k : String) : String :=
  if path = "" then k else path ++ "/" ++ k

/-- Message `there is no metadata` (line 181). -/
def msgNoMetadata : String := "there is no metadata"

/-- Message `specifying unusual metadata value <fullKey>` (line 187). -/
def msgUnusual (fullKey : String) : String :=
  "specifying unusual metadata value " ++ fullKey

/-- Message `option <fullKey> is not in default` (line 190). -/
def msgNotInDefault (fullKey : String) : String :=
  "option " ++ fullKey ++ " is not in default"

/-- Modelled from the spec: the redundancy-check message `specifies default
value for <fullKey>; remove the definition` that the specification section
4.3 says the checker emits when a declared leaf equals the schema default.
No branch of `_check_metadata_recursive` in the source produces it; it is
defined here only to compare the specified behavior with the code. -/
def msgSpecifiesDefault (fullKey : String) : String :=
  "specifies default value for " ++ fullKey ++ "; remove the definition"

/-- The forms of messages that `_check_metadata_recursive` can log (used to
characterize its output). -/
def MsgForm (m : String) : Prop :=
  m = msgNoMetadata ∨ (∃ fk, m = msgUnusual fk) ∨ (∃ fk, m = msgNotInDefault fk)

/-- Watch-list warning of a loop iteration (the first `if` of the loop body,
lines 186-187). -/
def unusualWarning (problem fullKey : String) : List (String × String) :=
  if fullKey ∈ warnAboutSettings then [(problemYaml problem, msgUnusual fullKey)] else []

/-- The `for k in data` loop when `data` is (unusually) a top-level string:
Python iterates its characters; `k not in default` behaves as in the dict
case, and when it is false the `type(data[k]) == dict` test evaluates
`data[k]` — indexing a string with a string key — which raises `TypeError`. -/
def metaStrLoop (problem : String) (cs : List Char) (default : Meta) (path : String) :
    List (String × String) × Option PyErr :=
  match cs with
  | [] => ([], none)
  | c :: rest =>
      let fullKey := fullKeyOf path (String.singleton c)
      let w1 := unusualWarning problem fullKey
      match pyContains (String.singleton c) default with
      | .error e => (w1, some e)
      | .ok false =>
          let r := metaStrLoop problem rest default path
          (w1 ++ [(problemYaml problem, msgNotInDefault fullKey)] ++ r.1, r.2)
      | .ok true => (w1, some PyErr.typeError)

mutual
/-- `_check_metadata_recursive(problem, data, default, path)` (lines
175-192), returning the appended log messages and the exception escaping the
call, if any (messages logged before the exception are kept, as the Python
global log would).  `data is None` yields the `there is no metadata` error;
iterating a non-dict, non-string scalar raises `TypeError`; a dict is
processed by `metaLoop`. -/
def checkMetadataRecursive (problem : String) (data default : Meta) (path : String) :
    List (String × String) × Option PyErr :=
  match data with
  | .val .vnone => ([(problemYaml problem, msgNoMetadata)], none)
  | .val (.vstr s) => metaStrLoop problem s.data default path
  | .val _ => ([], some PyErr.typeError)
  | .dict es => metaLoop problem es default path
/-- The `for k in data` loop of `_check_metadata_recursive` (lines 184-192):
per key, the watch-list warning, then `if k not in default` (which can raise
on a scalar `default`), the `option ... is not in default` error, or — when
the declared value is a dict — the recursive call on `data[k]` and
`default[k]` (the latter indexing can raise on a string `default`). -/
def metaLoop (problem : String) (es : MetaEntries) (default : Meta) (path : String) :
    List (String × String) × Option PyErr :=
  match es with
  | .nil => ([], none)
  | .cons k v rest =>
      let fullKey := fullKeyOf path k
      let w1 := unusualWarning problem fullKey
      match pyContains k default with
      | .error e => (w1, some e)
      | .ok false =>
          let r := metaLoop problem rest default path
          (w1 ++ [(problemYaml problem, msgNotInDefault fullKey)] ++ r.1, r.2)
      | .ok true =>
          match v with
          | .dict inner =>
              match pyIndex default k with
              | .error e => (w1, some e)
              | .ok d =>
                  let ri := checkMetadataRecursive problem (.dict inner) d fullKey
                  match ri.2 with
                  | some e => (w1 ++ ri.1, some e)
                  | none =>
                      let r := metaLoop problem rest default path
                      (w1 ++ ri.1 ++ r.1, r.2)
          | .val _ =>
              let r := metaLoop problem rest default path
              (w1 ++ r.1, r.2)
end

/-- Declared data accepted at the top of the recursion without raising while
iterating: a mapping, or the `None` sentinel. -/
def dataOK : Meta → Bool
| .dict _ => true
| .val .vnone => true
| .val _ => false

mutual
/-- The schema is a mapping at every path where the declared data is a
mapping (the totality precondition). -/
def schemaAligned : Meta → Meta → Bool
| .val _, _ => true
| .dict es, d =>
  match d with
  | .dict ds => entriesAligned es ds
  | .val _ => false
/-- Entry-wise alignment: a declared entry whose key resolves in the schema
must be aligned with the schema value there. -/
def entriesAligned : MetaEntries → MetaEntries → Bool
| .nil, _ => true
| .cons k v rest, ds =>
    (match entriesLookup ds k with
     | some d => schemaAligned v d
     | none => true) && entriesAligned rest ds
end

/-!
## Spelling dictionary store (`_SPELLING_DICTIONARIES`, lines 214-217)

The store maps language tags to word sets.  Lines 214-217 of
`_check_statement`:

  spelling_dictionary = _SPELLING_DICTIONARIES.get(language)
  if spelling_dictionary is not None:
      spelling_dictionary |= _SPELLING_DICTIONARIES.get('global', set())

`spelling_dictionary` aliases the set object stored for `language`, and
`|=` is an in-place union, so the stored set itself gains every word of the
global set.  The store is embedded as an association list; the in-place
mutation becomes an explicit update of the entry.
-/

/-- The `global` language tag. -/
def globalTag : String := "global"

/-- `dict.get(key)` on the store. -/
def storeLookup : List (String × List String) → String → Option (List String)
| [], _ => none
| (k, v) :: rest, key => if k = key then some v else storeLookup rest key

/-- Replace the value stored under an existing key. -/
def storeUpdate : List (String × List String) → String → List String →
    List (String × List String)
| [], _, _ => []
| (k, v) :: rest, key, nv => if k = key then (k, nv) :: rest else (k, v) :: storeUpdate rest key nv

/-- In-place union `s |= g` on Python sets, as a list with set semantics:
the members of `s` followed by the members of `g` not already present. -/
def pyUnionList (s g : List String) : List String :=
  s ++ g.filter (fun w => ! s.contains w)

/-- Lines 214-217 of `_check_statement`: look up the language entry, and when
present union the global set into it in place.  Returns the store after the
lookup together with the dictionary handed to `_parse_for_tex_errors`. -/
def dictionaryLookupStep (store : List (String × List String)) (language : String) :
    List (String × List String) × Option (List String) :=
  match storeLookup store language with
  | none => (store, none)
  | some s =>
      let merged := pyUnionList s ((storeLookup store globalTag).getD [])
      (storeUpdate store language merged, some merged)

/-!
# Helper lemmas

## Classifier lemmas
-/

mutual
/-- In math mode, a subtree contributes nothing to the plain-text stream. -/
theorem dfs_true_plain_nil : ∀ (n : DNode), (dfs n true).1 = []
| .text s => by simp [dfs]
| .node nm cs => by simp [dfs, dfsList_true_plain_nil cs]
theorem dfsList_true_plain_nil : ∀ (l : DNodeList), (dfsList l true).1 = []
| .nil => rfl
| .cons c cs => by simp [dfsList, dfs_true_plain_nil c, dfsList_true_plain_nil cs]
end

mutual
/-- In math mode, the lowercased payload of every text node of a subtree is
appended to the math-text stream. -/
theorem dfs_true_payload_mem : ∀ (n : DNode) (s : String),
    s ∈ textPayloads n → s.toLower ∈ (dfs n true).2
| .text s0, s => by
    intro h
    simp [textPayloads] at h
    subst h
    simp [dfs]
| .node nm cs, s => by
    simp only [textPayloads, dfs]
    intro h
    simp only [Bool.true_or]
    exact List.mem_append_right _ (dfsList_true_payload_mem cs s h)
theorem dfsList_true_payload_mem : ∀ (l : DNodeList) (s : String),
    s ∈ textPayloadsList l → s.toLower ∈ (dfsList l true).2
| .nil, s => by
    intro h
    simp [textPayloadsList] at h
| .cons c cs, s => by
    simp only [textPayloadsList, dfsList, List.mem_append]
    rintro (h | h)
    · exact Or.inl (dfs_true_payload_mem c s h)
    · exact Or.inr (dfsList_true_payload_mem cs s h)
end

mutual
/-- Every piece of the plain-text stream is a single space or the lowercased
payload of some text node of the subtree. -/
theorem dfs_plain_pieces : ∀ (n : DNode) (b : Bool) (p : String),
    p ∈ (dfs n b).1 → p = " " ∨ ∃ s, s ∈ textPayloads n ∧ p = s.toLower
| .text s0, b, p => by
    intro h
    cases b
    · simp [dfs] at h
      exact Or.inr ⟨s0, by simp [textPayloads], h⟩
    · simp [dfs] at h
| .node nm cs, b, p => by
    simp only [dfs, textPayloads, List.mem_append]
    rintro (h | h)
    · left
      split at h
      · simp at h
      · split at h
        · simpa using h
        · split at h <;> simp at h
    · rcases dfsList_plain_pieces cs _ p h with h1 | ⟨s, hs, he⟩
      · exact Or.inl h1
      · exact Or.inr ⟨s, hs, he⟩
theorem dfsList_plain_pieces : ∀ (l : DNodeList) (b : Bool) (p : String),
    p ∈ (dfsList l b).1 → p = " " ∨ ∃ s, s ∈ textPayloadsList l ∧ p = s.toLower
| .nil, b, p => by
    intro h
    simp [dfsList] at h
| .cons c cs, b, p => by
    simp only [dfsList, textPayloadsList, List.mem_append]
    rintro (h | h)
    · rcases dfs_plain_pieces c b p h with h1 | ⟨s, hs, he⟩
      · exact Or.inl h1
      · exact Or.inr ⟨s, Or.inl hs, he⟩
    · rcases dfsList_plain_pieces cs b p h with h1 | ⟨s, hs, he⟩
      · exact Or.inl h1
      · exact Or.inr ⟨s, Or.inr hs, he⟩
end

mutual
/-- Every piece of the math-text stream is a single space, the lowercased
payload of some text node, or the name of some non-text node followed by a
space. -/
theorem dfs_math_pieces : ∀ (n : DNode) (b : Bool) (p : String),
    p ∈ (dfs n b).2 → p = " " ∨ (∃ s, s ∈ textPayloads n ∧ p = s.toLower)
      ∨ (∃ nm, nm ∈ nodeNames n ∧ p = nm ++ " ")
| .text s0, b, p => by
    intro h
    cases b
    · simp [dfs] at h
    · simp [dfs] at h
      exact Or.inr (Or.inl ⟨s0, by simp [textPayloads], h⟩)
| .node nm cs, b, p => by
    simp only [dfs, textPayloads, nodeNames, List.mem_append]
    rintro (h | h)
    · split at h
      · simp at h
        exact Or.inr (Or.inr ⟨nm, List.mem_cons_self _ _, h⟩)
      · split at h
        · simp at h; exact Or.inl h
        · split at h <;> simp at h
          exact Or.inl h
    · rcases dfsList_math_pieces cs _ p h with h1 | ⟨s, hs, he⟩ | ⟨nm2, hn, he⟩
      · exact Or.inl h1
      · exact Or.inr (Or.inl ⟨s, hs, he⟩)
      · exact Or.inr (Or.inr ⟨nm2, List.mem_cons_of_mem _ hn, he⟩)
theorem dfsList_math_pieces : ∀ (l : DNodeList) (b : Bool) (p : String),
    p ∈ (dfsList l b).2 → p = " " ∨ (∃ s, s ∈ textPayloadsList l ∧ p = s.toLower)
      ∨ (∃ nm, nm ∈ nodeNamesList l ∧ p = nm ++ " ")
| .nil, b, p => by
    intro h
    simp [dfsList] at h
| .cons c cs, b, p => by
    simp only [dfsList, textPayloadsList, nodeNamesList, List.mem_append]
    rintro (h | h)
    · rcases dfs_math_pieces c b p h with h1 | ⟨s, hs, he⟩ | ⟨nm2, hn, he⟩
      · exact Or.inl h1
      · exact Or.inr (Or.inl ⟨s, Or.inl hs, he⟩)
      · exact Or.inr (Or.inr ⟨nm2, Or.inl hn, he⟩)
    · rcases dfsList_math_pieces cs b p h with h1 | ⟨s, hs, he⟩ | ⟨nm2, hn, he⟩
      · exact Or.inl h1
      · exact Or.inr (Or.inl ⟨s, Or.inr hs, he⟩)
      · exact Or.inr (Or.inr ⟨nm2, Or.inr hn, he⟩)
end

/-!
## Metadata checker lemmas
-/

theorem msgForm_unusualWarning (problem fullKey key m : String)
    (h : (key, m) ∈ unusualWarning problem fullKey) : MsgForm m := by
  unfold unusualWarning at h
  split at h
  · simp at h
    exact Or.inr (Or.inl ⟨fullKey, h.2⟩)
  · simp at h

theorem msgForm_strLoop : ∀ (cs : List Char) (problem : String) (default : Meta)
    (path key m : String), (key, m) ∈ (metaStrLoop problem cs default path).1 → MsgForm m
| [], _, _, _, _, _ => by
    intro h
    simp [metaStrLoop] at h
| c :: rest, problem, default, path, key, m => by
    intro h
    rcases hpc : pyContains (String.singleton c) default with e | b
    · simp only [metaStrLoop, hpc] at h
      exact msgForm_unusualWarning _ _ _ _ h
    · cases b
      · simp only [metaStrLoop, hpc] at h
        rcases List.mem_append.1 h with h1 | h2
        · rcases List.mem_append.1 h1 with h3 | h4
          · exact msgForm_unusualWarning _ _ _ _ h3
          · simp at h4
            exact Or.inr (Or.inr ⟨_, h4.2⟩)
        · exact msgForm_strLoop rest problem default path key m h2
      · simp only [metaStrLoop, hpc] at h
        exact msgForm_unusualWarning _ _ _ _ h

mutual
theorem msgForm_check : ∀ (data default : Meta) (problem path key m : String),
    (key, m) ∈ (checkMetadataRecursive problem data default path).1 → MsgForm m
| .val .vnone, default, problem, path, key, m => by
    intro h
    simp [checkMetadataRecursive] at h
    exact Or.inl h.2
| .val (.vbool b), default, problem, path, key, m => by
    intro h
    simp [checkMetadataRecursive] at h
| .val (.vint n), default, problem, path, key, m => by
    intro h
    simp [checkMetadataRecursive] at h
| .val (.vstr s), default, problem, path, key, m => by
    intro h
    exact msgForm_strLoop s.data problem default path key m
      (by simpa [checkMetadataRecursive] using h)
| .dict es, default, problem, path, key, m => by
    intro h
    exact msgForm_loop es default problem path key m
      (by simpa [checkMetadataRecursive] using h)
termination_by structural data _ => data

theorem msgForm_loop : ∀ (es : MetaEntries) (default : Meta) (problem path key m : String),
    (key, m) ∈ (metaLoop problem es default path).1 → MsgForm m
| .nil, default, problem, path, key, m => by
    intro h
    simp [metaLoop] at h
| .cons k (Meta.val v0) rest, default, problem, path, key, m => by
    intro h
    rcases hpc : pyContains k default with e | b
    · simp only [metaLoop, hpc] at h
      exact msgForm_unusualWarning _ _ _ _ h
    · cases b
      · simp only [metaLoop, hpc] at h
        rcases List.mem_append.1 h with h1 | h2
        · rcases List.mem_append.1 h1 with h3 | h4
          · exact msgForm_unusualWarning _ _ _ _ h3
          · simp at h4
            exact Or.inr (Or.inr ⟨_, h4.2⟩)
        · exact msgForm_loop rest default problem path key m h2
      · simp only [metaLoop, hpc] at h
        rcases List.mem_append.1 h with h1 | h2
        · exact msgForm_unusualWarning _ _ _ _ h1
        · exact msgForm_loop rest default problem path key m h2
| .cons k (Meta.dict inner) rest, default, problem, path, key, m => by
    intro h
    rcases hpc : pyContains k default with e | b
    · simp only [metaLoop, hpc] at h
      exact msgForm_unusualWarning _ _ _ _ h
    · cases b
      · simp only [metaLoop, hpc] at h
        rcases List.mem_append.1 h with h1 | h2
        · rcases List.mem_append.1 h1 with h3 | h4
          · exact msgForm_unusualWarning _ _ _ _ h3
          · simp at h4
            exact Or.inr (Or.inr ⟨_, h4.2⟩)
        · exact msgForm_loop rest default problem path key m h2
      · rcases hpi : pyIndex default k with e2 | d
        · simp only [metaLoop, hpc, hpi] at h
          exact msgForm_unusualWarning _ _ _ _ h
        · rcases hri : (checkMetadataRecursive problem (Meta.dict inner) d (fullKeyOf path k)).2
            with _ | e3
          · simp only [metaLoop, hpc, hpi, hri] at h
            rcases List.mem_append.1 h with h1 | h2
            · rcases List.mem_append.1 h1 with h3 | h4
              · exact msgForm_unusualWarning _ _ _ _ h3
              · exact msgForm_check (Meta.dict inner) d problem (fullKeyOf path k) key m h4
            · exact msgForm_loop rest default problem path key m h2
          · simp only [metaLoop, hpc, hpi, hri] at h
            rcases List.mem_append.1 h with h1 | h2
            · exact msgForm_unusualWarning _ _ _ _ h1
            · exact msgForm_check (Meta.dict inner) d problem (fullKeyOf path k) key m h2
termination_by structural es _ => es
end

theorem data_getq_of_eq {a b : String} (h : a = b) (i : Nat) : a.data[i]? = b.data[i]? := by
  rw [h]

/-- The specified redundancy message differs from the no-metadata error. -/
theorem specifiesDefault_ne_noMetadata (fk : String) : msgSpecifiesDefault fk ≠ msgNoMetadata := by
  intro h
  have h0 := data_getq_of_eq h 0
  rw [msgSpecifiesDefault, msgNoMetadata, String.data_append, String.data_append,
    List.append_assoc, List.getElem?_append_left (by decide)] at h0
  exact absurd h0 (by decide)

/-- The specified redundancy message differs from every watch-list warning
(the two differ at character index 6). -/
theorem specifiesDefault_ne_unusual (fk fk2 : String) :
    msgSpecifiesDefault fk ≠ msgUnusual fk2 := by
  intro h
  have h6 := data_getq_of_eq h 6
  rw [msgSpecifiesDefault, msgUnusual, String.data_append, String.data_append,
    String.data_append, List.append_assoc, List.getElem?_append_left (by decide),
    List.getElem?_append_left (by decide)] at h6
  exact absurd h6 (by decide)

/-- The specified redundancy message differs from every schema-violation
error (the two differ at character index 0). -/
theorem specifiesDefault_ne_notInDefault (fk fk2 : String) :
    msgSpecifiesDefault fk ≠ msgNotInDefault fk2 := by
  intro h
  have h0 := data_getq_of_eq h 0
  rw [msgSpecifiesDefault, msgNotInDefault, String.data_append, String.data_append,
    String.data_append, String.data_append, List.append_assoc, List.append_assoc,
    List.getElem?_append_left (by decide), List.getElem?_append_left (by decide)] at h0
  exact absurd h0 (by decide)

theorem entriesLookup_of_hasKey : ∀ (ds : MetaEntries) (k : String),
    entriesHasKey ds k = true → ∃ d, entriesLookup ds k = some d
| .nil, k => by simp [entriesHasKey]
| .cons k0 v0 rest, k => by
    intro h
    simp only [entriesHasKey, Bool.or_eq_true] at h
    by_cases hk : k0 = k
    · exact ⟨v0, by simp [entriesLookup, hk]⟩
    · rcases h with h | h
      · simp [hk] at h
      · obtain ⟨d, hd⟩ := entriesLookup_of_hasKey rest k h
        exact ⟨d, by simp [entriesLookup, hk, hd]⟩

mutual
/-- Under the alignment precondition, the checker never raises. -/
theorem checkMeta_total : ∀ (data default : Meta) (problem path : String),
    dataOK data = true → schemaAligned data default = true →
    (checkMetadataRecursive problem data default path).2 = none
| .val .vnone, default, problem, path => by
    intro _ _
    simp [checkMetadataRecursive]
| .val (.vbool b), default, problem, path => by
    intro h _
    simp [dataOK] at h
| .val (.vint n), default, problem, path => by
    intro h _
    simp [dataOK] at h
| .val (.vstr s), default, problem, path => by
    intro h _
    simp [dataOK] at h
| .dict es, default, problem, path => by
    intro _ hal
    cases default with
    | val v0 => simp [schemaAligned] at hal
    | dict ds =>
        simp only [schemaAligned] at hal
        simpa [checkMetadataRecursive] using metaLoop_total es ds problem path hal
termination_by structural data _ => data

theorem metaLoop_total : ∀ (es ds : MetaEntries) (problem path : String),
    entriesAligned es ds = true →
    (metaLoop problem es (Meta.dict ds) path).2 = none
| .nil, ds, problem, path => by
    intro _
    simp [metaLoop]
| .cons k (Meta.val v0) rest, ds, problem, path => by
    intro hal
    simp only [entriesAligned, Bool.and_eq_true] at hal
    have hrest := metaLoop_total rest ds problem path hal.2
    rcases hk : entriesHasKey ds k with _ | _
    · simp only [metaLoop, pyContains, hk]
      simpa using hrest
    · simp only [metaLoop, pyContains, hk]
      simpa using hrest
| .cons k (Meta.dict inner) rest, ds, problem, path => by
    intro hal
    simp only [entriesAligned, Bool.and_eq_true] at hal
    have hrest := metaLoop_total rest ds problem path hal.2
    rcases hk : entriesHasKey ds k with _ | _
    · simp only [metaLoop, pyContains, hk]
      simpa using hrest
    · obtain ⟨d, hd⟩ := entriesLookup_of_hasKey ds k hk
      have hs : schemaAligned (Meta.dict inner) d = true := by
        have := hal.1
        rw [hd] at this
        exact this
      have hin := checkMeta_total (Meta.dict inner) d problem (fullKeyOf path k)
        (by simp [dataOK]) hs
      simp only [metaLoop, pyContains, hk, pyIndex, hd, hin]
      simpa using hrest
termination_by structural es _ => es
end

/-!
## Tokenizer lemmas
-/

theorem dropWhile_cons_false {α} (p : α → Bool) : ∀ (l : List α) (a : α) (as : List α),
    l.dropWhile p = a :: as → p a = false
| [], a, as => by simp [List.dropWhile]
| b :: l, a, as => by
    intro h
    rcases hb : p b with _ | _
    · simp [List.dropWhile, hb] at h
      rw [← h.1]
      exact hb
    · simp [List.dropWhile, hb] at h
      exact dropWhile_cons_false p l a as h

theorem takeWhile_eq_self_of_all {α} (p : α → Bool) : ∀ (l : List α),
    (∀ c ∈ l, p c = true) → l.takeWhile p = l
| [] => by simp
| a :: l => by
    intro h
    have ha := h a (List.mem_cons_self a l)
    simp [List.takeWhile, ha, takeWhile_eq_self_of_all p l (fun c hc => h c (List.mem_cons_of_mem a hc))]

/-- Every run produced by the splitter is non-empty and whitespace-free. -/
theorem splitRunsAux_runs : ∀ (s acc : List Char), (∀ c ∈ acc, isSpaceChar c = false) →
    ∀ r ∈ splitRunsAux s acc, r ≠ [] ∧ ∀ c ∈ r, isSpaceChar c = false
| [], acc => by
    intro hacc r hr
    cases acc with
    | nil => simp [splitRunsAux] at hr
    | cons a as =>
        simp [splitRunsAux] at hr
        subst hr
        refine ⟨by simp, ?_⟩
        intro c hc
        rw [← List.reverse_cons] at hc
        exact hacc c (List.mem_reverse.1 hc)
| c :: cs, acc => by
    intro hacc r hr
    rcases hsp : isSpaceChar c with _ | _
    · simp only [splitRunsAux, hsp, Bool.false_eq_true, if_false] at hr
      refine splitRunsAux_runs cs (c :: acc) ?_ r hr
      intro c2 hc2
      rcases List.mem_cons.1 hc2 with rfl | h
      · exact hsp
      · exact hacc c2 h
    · cases acc with
      | nil =>
          simp only [splitRunsAux, hsp, if_true] at hr
          exact splitRunsAux_runs cs [] (by simp) r hr
      | cons a as =>
          simp only [splitRunsAux, hsp, if_true] at hr
          rcases List.mem_cons.1 hr with h1 | h2
          · subst h1
            refine ⟨by simp, ?_⟩
            intro c2 hc2
            exact hacc c2 (List.mem_reverse.1 hc2)
          · exact splitRunsAux_runs cs [] (by simp) r h2

/-- What `trimRun` guarantees about a produced token: it starts and ends with
a word character and its characters come from the run. -/
theorem trimRun_some {r t : List Char} (h : trimRun r = some t) :
    (∃ c cs, t = c :: cs ∧ isWordChar c = true) ∧
    (∃ d, t.getLast? = some d ∧ isWordChar d = true) ∧ (∀ c ∈ t, c ∈ r) := by
  simp only [trimRun] at h
  set q := fun c => ! isWordChar c with hq
  split at h
  · exact absurd h (by simp)
  · rename_i hne
    have ht : t = ((r.dropWhile q).reverse.dropWhile q).reverse := by
      exact (Option.some.injEq _ _ ▸ h).symm
    have htne : t ≠ [] := by
      intro h0
      rw [h0] at ht
      rw [← ht] at hne
      simp at hne
    -- the reverse of t is the dropWhile of the reversed first trim
    have htrev : t.reverse = (r.dropWhile q).reverse.dropWhile q := by
      rw [ht, List.reverse_reverse]
    -- last character of t is a word character
    have hlast : ∃ d, t.getLast? = some d ∧ isWordChar d = true := by
      cases htr : t.reverse with
      | nil => exact absurd (by simpa using congrArg List.reverse htr) htne
      | cons d ds =>
          have hqd : q d = false := dropWhile_cons_false q _ d ds (htr ▸ htrev).symm ▸ rfl
          refine ⟨d, ?_, ?_⟩
          · rw [← List.head?_reverse, htr]
            rfl
          · have := dropWhile_cons_false q _ d ds (by rw [← htrev, htr])
            simpa [hq] using this
    -- t is a prefix of the first trim
    obtain ⟨u, hu⟩ : t.reverse <:+ (r.dropWhile q).reverse := htrev ▸ List.dropWhile_suffix q
    have hr1 : r.dropWhile q = t ++ u.reverse := by
      have := congrArg List.reverse hu
      simpa [List.reverse_append] using this.symm
    have hhead : ∃ c cs, t = c :: cs ∧ isWordChar c = true := by
      cases htc : t with
      | nil => exact absurd htc htne
      | cons c cs =>
          have : r.dropWhile q = c :: (cs ++ u.reverse) := by rw [hr1, htc]; simp
          have hqc := dropWhile_cons_false q r c (cs ++ u.reverse) this
          exact ⟨c, cs, rfl, by simpa [hq] using hqc⟩
    refine ⟨hhead, hlast, ?_⟩
    intro c hc
    have hc1 : c ∈ r.dropWhile q := by
      rw [hr1]
      exact List.mem_append_left _ hc
    exact (List.dropWhile_sublist q).subset hc1

/-- Consuming a whitespace-free block just accumulates it. -/
theorem splitRunsAux_append_run : ∀ (t rest acc : List Char),
    (∀ c ∈ t, isSpaceChar c = false) →
    splitRunsAux (t ++ rest) acc = splitRunsAux rest (t.reverse ++ acc)
| [], rest, acc => by simp
| c :: t, rest, acc => by
    intro h
    have hc := h c (List.mem_cons_self c t)
    simp only [List.cons_append, splitRunsAux, hc, Bool.false_eq_true, if_false, List.append_eq]
    rw [splitRunsAux_append_run t rest (c :: acc) (fun c2 hc2 => h c2 (List.mem_cons_of_mem c hc2))]
    simp

/-- Splitting the space-joined list of non-empty whitespace-free tokens
recovers exactly those tokens. -/
theorem splitRuns_join : ∀ (ts : List (List Char)),
    (∀ t ∈ ts, t ≠ [] ∧ ∀ c ∈ t, isSpaceChar c = false) →
    splitRuns (joinTokensL ts) = ts
| [] => by
    intro _
    simp [splitRuns, joinTokensL, splitRunsAux]
| [t] => by
    intro h
    obtain ⟨hne, hsp⟩ := h t (List.mem_cons_self t [])
    have : splitRuns (joinTokensL [t]) = splitRunsAux (t ++ []) [] := by
      simp [splitRuns, joinTokensL]
    rw [this, splitRunsAux_append_run t [] [] hsp]
    cases htr : t.reverse with
    | nil => exact absurd (by simpa using congrArg List.reverse htr) hne
    | cons a as =>
        simp only [List.append_nil, htr, splitRunsAux]
        rw [← htr, List.reverse_reverse]
| t :: t2 :: rest => by
    intro h
    obtain ⟨hne, hsp⟩ := h t (List.mem_cons_self t (t2 :: rest))
    have hjoin : joinTokensL (t :: t2 :: rest) = t ++ ' ' :: joinTokensL (t2 :: rest) := by
      simp [joinTokensL]
    rw [splitRuns, hjoin, splitRunsAux_append_run t (' ' :: joinTokensL (t2 :: rest)) [] hsp]
    cases htr : t.reverse with
    | nil => exact absurd (by simpa using congrArg List.reverse htr) hne
    | cons a as =>
        have hspace : isSpaceChar ' ' = true := by decide
        simp only [List.append_nil, splitRunsAux, hspace, if_true, htr]
        rw [← htr, List.reverse_reverse]
        have ih := splitRuns_join (t2 :: rest) (fun t3 ht3 => h t3 (List.mem_cons_of_mem t ht3))
        simp only [splitRuns] at ih
        rw [ih]

/-- A token that starts and ends with a word character is its own trim. -/
theorem trimRun_id : ∀ (t : List Char) (c : Char) (cs : List Char) (d : Char),
    t = c :: cs → isWordChar c = true → t.getLast? = some d → isWordChar d = true →
    trimRun t = some t := by
  intro t c cs d htc hc hd hwd
  have h1 : t.dropWhile (fun x => ! isWordChar x) = t := by
    rw [htc]
    simp [List.dropWhile, hc]
  have h2 : t.reverse.dropWhile (fun x => ! isWordChar x) = t.reverse := by
    cases htr : t.reverse with
    | nil => rfl
    | cons e es =>
        have he : e = d := by
          have := List.head?_reverse t
          rw [htr, hd] at this
          simpa using this
        subst he
        simp [List.dropWhile, hwd]
  simp only [trimRun, h1, h2, List.reverse_reverse]
  have : t.isEmpty = false := by rw [htc]; rfl
  simp [this]

/-- `filterMap trimRun` is the identity on lists of well-formed tokens. -/
theorem filterMap_trimRun_id : ∀ (ts : List (List Char)),
    (∀ t ∈ ts, (∃ c cs, t = c :: cs ∧ isWordChar c = true) ∧
      ∃ d, t.getLast? = some d ∧ isWordChar d = true) →
    ts.filterMap trimRun = ts
| [] => by simp
| t :: ts => by
    intro h
    obtain ⟨⟨c, cs, htc, hc⟩, d, hd, hwd⟩ := h t (List.mem_cons_self t ts)
    rw [List.filterMap_cons, trimRun_id t c cs d htc hc hd hwd]
    rw [filterMap_trimRun_id ts (fun t2 ht2 => h t2 (List.mem_cons_of_mem t ht2))]

/-- Structure of every token produced by the tokenizer: non-empty, starts and
ends with a word character, contains no whitespace. -/
theorem tokensL_props (s : List Char) : ∀ t ∈ tokensL s,
    (∃ c cs, t = c :: cs ∧ isWordChar c = true) ∧
    (∃ d, t.getLast? = some d ∧ isWordChar d = true) ∧
    (t ≠ [] ∧ ∀ c ∈ t, isSpaceChar c = false) := by
  intro t ht
  obtain ⟨r, hr, htr⟩ := List.mem_filterMap.1 ht
  obtain ⟨hne, hnsp⟩ := splitRunsAux_runs s [] (by simp) r hr
  obtain ⟨hhead, hlast, hmem⟩ := trimRun_some htr
  refine ⟨hhead, hlast, ?_, ?_⟩
  · obtain ⟨c, cs, htc, _⟩ := hhead
    rw [htc]
    simp
  · intro c hc
    exact hnsp c (hmem c hc)

/-!
## Line-check lemmas

None of the five patterns can consume a percent sign, and the `[^%]*` prefix
cannot cross one, so characters at or after the first percent sign of a line
never affect any check.
-/

theorem eatLit_pct : ∀ (pat : List Char), (∀ p ∈ pat, p ≠ '%') →
    ∀ (w v : List Char),
    eatLit pat (w ++ '%' :: v) = (eatLit pat w).map (fun r => r ++ '%' :: v)
| [], _, w, v => by simp [eatLit]
| p :: ps, hp, [], v => by
    have hne : ¬ ('%'.toLower = p) := by
      have h1 : '%'.toLower = '%' := by decide
      rw [h1]
      exact fun h => (hp p (List.mem_cons_self p ps)) h.symm
    simp only [List.nil_append, eatLit, if_neg hne]
    rfl
| p :: ps, hp, x :: xs, v => by
    by_cases hx : x.toLower = p
    · simp only [List.cons_append, eatLit, if_pos hx]
      exact eatLit_pct ps (fun q hq => hp q (List.mem_cons_of_mem p hq)) xs v
    · simp [eatLit, hx]

theorem dropWhile_pct (p : Char → Bool) (hp : p '%' = false) : ∀ (w v : List Char),
    List.dropWhile p (w ++ '%' :: v) = List.dropWhile p w ++ '%' :: v
| [], v => by simp [List.dropWhile, hp]
| c :: w, v => by
    rcases hc : p c with _ | _
    · simp [List.dropWhile, hc]
    · simp only [List.cons_append, List.dropWhile, hc]
      exact dropWhile_pct p hp w v

theorem takeWhile_pct (p : Char → Bool) (hp : p '%' = false) : ∀ (w v : List Char),
    List.takeWhile p (w ++ '%' :: v) = List.takeWhile p w
| [], v => by simp [List.takeWhile, hp]
| c :: w, v => by
    rcases hc : p c with _ | _
    · simp [List.takeWhile, hc]
    · simp only [List.cons_append, List.takeWhile, hc, List.append_eq]
      rw [takeWhile_pct p hp w v]

theorem nonWordAt_pct (w v : List Char) : nonWordAt (w ++ '%' :: v) = nonWordAt w := by
  cases w with
  | nil => rfl
  | cons c cs => rfl

theorem matchQuote_pct (w v : List Char) : matchQuote (w ++ '%' :: v) = matchQuote w := by
  unfold matchQuote
  rw [eatLit_pct quotePat (by decide) w v]
  cases eatLit quotePat w <;> rfl

theorem matchDots_pct (w v : List Char) : matchDots (w ++ '%' :: v) = matchDots w := by
  unfold matchDots
  rw [eatLit_pct dotsPat (by decide) w v]
  cases eatLit dotsPat w <;> rfl

theorem matchTimes_pct (w v : List Char) : matchTimes (w ++ '%' :: v) = matchTimes w := by
  unfold matchTimes
  rw [eatLit_pct timesPat (by decide) w v]
  cases h : eatLit timesPat w with
  | none => rfl
  | some r =>
      simp only [Option.map_some']
      exact nonWordAt_pct r v

theorem matchFloating_pct (w v : List Char) :
    matchFloating (w ++ '%' :: v) = matchFloating w := by
  unfold matchFloating
  rw [eatLit_pct floatingPat (by decide) w v]
  cases h : eatLit floatingPat w with
  | none => rfl
  | some r =>
      simp only [Option.map_some']
      rw [dropWhile_pct dashSpace (by decide) r v]
      rw [eatLit_pct pointPat (by decide) (r.dropWhile dashSpace) v]
      cases eatLit pointPat (r.dropWhile dashSpace) <;> rfl

theorem igLookahead_pct (w v : List Char) : igLookahead (w ++ '%' :: v) = igLookahead w := by
  unfold igLookahead
  rw [eatLit_pct widthPat (by decide) w v]
  cases h : eatLit widthPat w with
  | none => rfl
  | some r1 =>
      simp only [Option.map_some']
      rw [takeWhile_pct digitDot (by decide) r1 v, dropWhile_pct digitDot (by decide) r1 v]
      rw [eatLit_pct backslashPat (by decide) (r1.dropWhile digitDot) v]
      cases h2 : eatLit backslashPat (r1.dropWhile digitDot) with
      | none => rfl
      | some r2 =>
          simp only [Option.map_some']
          rw [eatLit_pct twPat (by decide) r2 v, eatLit_pct lwPat (by decide) r2 v]
          cases eatLit twPat r2 <;> cases eatLit lwPat r2 <;> rfl

theorem matchIG_pct (w v : List Char) : matchIG (w ++ '%' :: v) = matchIG w := by
  unfold matchIG
  rw [eatLit_pct igPat (by decide) w v]
  cases h : eatLit igPat w with
  | none => rfl
  | some r =>
      simp only [Option.map_some']
      rw [igLookahead_pct r v]

/-- Dropping everything from the first percent sign on does not change the
result of a `^[^%]*`-anchored search whose pattern is percent-opaque. -/
theorem searchNoPct_key (M : List Char → Bool) (hM : ∀ w v, M (w ++ '%' :: v) = M w)
    (u : List Char) (vt : List Char) :
    searchNoPct M (u ++ '%' :: vt) = searchNoPct M u := by
  rw [Bool.eq_iff_iff]
  simp only [searchNoPct, List.any_eq_true, List.mem_range, Bool.and_eq_true]
  constructor
  · rintro ⟨j, hj, hall, hm⟩
    by_cases hju : j ≤ u.length
    · refine ⟨j, by omega, ?_, ?_⟩
      · rw [List.take_append_of_le_length hju] at hall
        exact hall
      · rw [List.drop_append_of_le_length hju, hM] at hm
        exact hm
    · exfalso
      have hmem : '%' ∈ (u ++ '%' :: vt).take j := by
        rw [List.take_append_eq_append_take]
        refine List.mem_append_right _ ?_
        cases hk : j - u.length with
        | zero => omega
        | succ k =>
            rw [List.take_succ_cons]
            exact List.mem_cons_self _ _
      rw [List.all_eq_true] at hall
      have := hall _ hmem
      simp [nePct] at this
  · rintro ⟨j, hj, hall, hm⟩
    have hju : j ≤ u.length := by omega
    refine ⟨j, by simp [List.length_append]; omega, ?_, ?_⟩
    · rw [List.take_append_of_le_length hju]
      exact hall
    · rw [List.drop_append_of_le_length hju, hM]
      exact hm

/-- A `^[^%]*`-anchored search with a percent-opaque pattern only sees the
part of the line before its first percent sign. -/
theorem searchNoPct_takeWhile (M : List Char → Bool)
    (hM : ∀ w v, M (w ++ '%' :: v) = M w) (line : List Char) :
    searchNoPct M line = searchNoPct M (line.takeWhile nePct) := by
  by_cases h : '%' ∈ line
  · have hsplit := List.takeWhile_append_dropWhile nePct line
    cases hd : line.dropWhile nePct with
    | nil =>
        exfalso
        rw [hd, List.append_nil] at hsplit
        have : nePct '%' = true := List.mem_takeWhile_imp (hsplit ▸ h)
        simp [nePct] at this
    | cons d ds =>
        have hdp : d = '%' := by
          have := dropWhile_cons_false nePct line d ds hd
          simpa [nePct] using this
        subst hdp
        conv_lhs => rw [← hsplit, hd]
        exact searchNoPct_key M hM _ ds
  · have : line.takeWhile nePct = line := by
      refine takeWhile_eq_self_of_all nePct line ?_
      intro c hc
      have : c ≠ '%' := fun hc2 => h (hc2 ▸ hc)
      simp [nePct, this]
    rw [this]

theorem takeWhile_truncAux : ∀ (prev : Option Char) (line : List Char),
    (truncAtUnescapedPctAux prev line).takeWhile nePct = line.takeWhile nePct
| _, [] => rfl
| prev, c :: rest => by
    by_cases hc : c = '%'
    · subst hc
      by_cases hp : prev = some '\\'
      · simp [truncAtUnescapedPctAux, hp, List.takeWhile, nePct]
      · simp [truncAtUnescapedPctAux, hp, List.takeWhile, nePct]
    · simp only [truncAtUnescapedPctAux, hc, decide_False, Bool.false_and, if_false,
        List.takeWhile, nePct]
      simp only [hc, decide_not, decide_False, Bool.not_false]
      rw [takeWhile_truncAux (some c) rest]

/-- Truncating a line at its first unescaped percent sign does not change the
result of any percent-opaque anchored search. -/
theorem searchNoPct_truncUnescaped (M : List Char → Bool)
    (hM : ∀ w v, M (w ++ '%' :: v) = M w) (l : List Char) :
    searchNoPct M (truncAtUnescapedPct l) = searchNoPct M l := by
  rw [searchNoPct_takeWhile M hM l,
    searchNoPct_takeWhile M hM (truncAtUnescapedPct l),
    truncAtUnescapedPct, takeWhile_truncAux none l]

theorem any_search_trunc (M : List Char → Bool)
    (hM : ∀ w v, M (w ++ '%' :: v) = M w) (lines : List (List Char)) :
    (lines.map truncAtUnescapedPct).any (searchNoPct M) = lines.any (searchNoPct M) := by
  induction lines with
  | nil => rfl
  | cons l ls ih =>
      simp only [List.map_cons, List.any_cons, ih, searchNoPct_truncUnescaped M hM l]

theorem count_filterMap_if_le {γ β : Type} [DecidableEq β] :
    ∀ (l : List (γ × β)) (cond : γ × β → Bool) (b : β),
    List.count b (l.filterMap (fun pr => if cond pr then some pr.2 else none)) ≤
      List.count b (l.map Prod.snd)
| [], _, _ => by simp
| x :: l, cond, b => by
    rcases hc : cond x with _ | _
    · simp only [List.filterMap_cons, hc, Bool.false_eq_true, if_false, List.map_cons,
        List.count_cons]
      exact le_trans (count_filterMap_if_le l cond b) (Nat.le_add_right _ _)
    · simp only [List.filterMap_cons, hc, if_true, List.map_cons, List.count_cons]
      exact Nat.add_le_add_right (count_filterMap_if_le l cond b) _

theorem filterMap_if_congr {γ β : Type} (c1 c2 : γ × β → Bool) :
    ∀ (l : List (γ × β)), (∀ x ∈ l, c1 x = c2 x) →
    l.filterMap (fun pr => if c1 pr then some pr.2 else none) =
      l.filterMap (fun pr => if c2 pr then some pr.2 else none)
| [], _ => rfl
| x :: l, h => by
    simp only [List.filterMap_cons, h x (List.mem_cons_self x l)]
    rw [filterMap_if_congr c1 c2 l (fun y hy => h y (List.mem_cons_of_mem x hy))]

/-!
## Dictionary store lemmas
-/

theorem storeLookup_update_self : ∀ (store : List (String × List String)) (k : String)
    (nv s : List String), storeLookup store k = some s →
    storeLookup (storeUpdate store k nv) k = some nv
| [], k, nv, s => by simp [storeLookup]
| (k0, v0) :: rest, k, nv, s => by
    intro h
    by_cases hk : k0 = k
    · simp [storeUpdate, storeLookup, hk]
    · simp only [storeLookup, if_neg hk] at h
      simp only [storeUpdate, if_neg hk, storeLookup, if_neg hk]
      exact storeLookup_update_self rest k nv s h

theorem storeLookup_update_other : ∀ (store : List (String × List String)) (k k2 : String)
    (nv : List String), k ≠ k2 →
    storeLookup (storeUpdate store k nv) k2 = storeLookup store k2
| [], k, k2, nv => by simp [storeUpdate]
| (k0, v0) :: rest, k, k2, nv => by
    intro hne
    by_cases hk : k0 = k
    · subst hk
      simp [storeUpdate, storeLookup, hne]
    · simp only [storeUpdate, if_neg hk, storeLookup]
      by_cases hk2 : k0 = k2
      · simp [hk2]
      · simp only [if_neg hk2]
        exact storeLookup_update_other rest k k2 nv hne

theorem mem_pyUnionList_right (w : String) (s g : List String) (h : w ∈ g) :
    w ∈ pyUnionList s g := by
  by_cases hs : w ∈ s
  · exact List.mem_append_left _ hs
  · refine List.mem_append_right _ ?_
    rw [List.mem_filter]
    refine ⟨h, ?_⟩
    simp only [Bool.not_eq_true']
    simpa using hs

/-!
# Claims
-/

/-- C1: when the external markup parser raises, the `except` branch of
`_parse_for_tex_errors` (line 306) calls the two-parameter lambda `warning`
with three positional arguments, so the branch itself raises `TypeError`:
no failure message is appended for the document, and the exception escapes
the per-document check instead of the specified log-one-message-and-return
behavior (it is only caught at the `check_problems` orchestrator boundary). -/
theorem c1_parse_failure_branch_raises (spellingDictionary : Option (List String))
    (filename exnRepr : String) (log : List (String × String)) :
    parseForTexErrors none spellingDictionary filename exnRepr log
      = (log, some PyErr.typeError) := rfl

/-- C2 counterexample: the declared key `foo` exists in the schema, its
declared value is the leaf 1, equal to the schema default, yet the checker
emits no finding at all for this configuration — in particular not the
specified redundancy message. -/
theorem c2_counterexample :
    entriesLookup (MetaEntries.cons (r"foo") (Meta.val (Val.vint 1)) MetaEntries.nil) (r"foo")
        = some (Meta.val (Val.vint 1)) ∧
    (checkMetadataRecursive (r"p")
        (Meta.dict (MetaEntries.cons (r"foo") (Meta.val (Val.vint 1)) MetaEntries.nil))
        (Meta.dict (MetaEntries.cons (r"foo") (Meta.val (Val.vint 1)) MetaEntries.nil))
        (r"")).1 = [] :=
  ⟨rfl, by decide⟩

/-- C2 (amended): the metadata defaults checker of this source never emits
the redundancy finding `specifies default value for <fullKey>; remove the
definition` — for no configuration, schema, path and key does that message
appear in its log (this variant of the checker omits the redundancy check
entirely; a declared leaf equal to the schema default produces no finding). -/
theorem c2_no_default_value_finding (problem : String) (data default : Meta)
    (path key fk : String) :
    (key, msgSpecifiesDefault fk) ∉ (checkMetadataRecursive problem data default path).1 := by
  intro h
  rcases msgForm_check data default problem path key (msgSpecifiesDefault fk) h with
    h1 | ⟨fk2, h2⟩ | ⟨fk2, h3⟩
  · exact specifiesDefault_ne_noMetadata fk h1
  · exact specifiesDefault_ne_unusual fk fk2 h2
  · exact specifiesDefault_ne_notInDefault fk fk2 h3

/-- C2 witness: the amended statement at the concrete input of the
counterexample. -/
theorem c2_no_default_value_finding_witness :
    (problemYaml (r"p"), msgSpecifiesDefault (r"foo")) ∉
      (checkMetadataRecursive (r"p")
        (Meta.dict (MetaEntries.cons (r"foo") (Meta.val (Val.vint 1)) MetaEntries.nil))
        (Meta.dict (MetaEntries.cons (r"foo") (Meta.val (Val.vint 1)) MetaEntries.nil))
        (r"")).1 :=
  c2_no_default_value_finding (r"p")
    (Meta.dict (MetaEntries.cons (r"foo") (Meta.val (Val.vint 1)) MetaEntries.nil))
    (Meta.dict (MetaEntries.cons (r"foo") (Meta.val (Val.vint 1)) MetaEntries.nil))
    (r"") (problemYaml (r"p")) (r"foo")

/-- C3 counterexample: inside a math environment, a generic node named `foo`
has its name plus a trailing space appended to the math-text stream, although
the tree contains no text node at all; so it is not the case that the streams
consist only of lowercased text payloads and single-space separators. -/
theorem c3_counterexample :
    (r"foo ") ∈ (dfs (DNode.node (r"math")
        (DNodeList.cons (DNode.node (r"foo") DNodeList.nil) DNodeList.nil)) false).2 ∧
    (r"foo ") ≠ (r" ") ∧
    textPayloads (DNode.node (r"math")
        (DNodeList.cons (DNode.node (r"foo") DNodeList.nil) DNodeList.nil)) = [] :=
  ⟨by decide, by decide, by decide⟩

/-- C3 (amended): the plain-text stream consists only of lowercased text-node
payloads and single-space separators, in every context; the math-text stream
consists of those plus, for every non-text node visited in math mode, the
node's own name followed by a space (the `if in_math` branch of `_dfs`
appends `node.nodeName + ' '` for non-text nodes). -/
theorem c3_stream_pieces (n : DNode) (b : Bool) (p : String) :
    (p ∈ (dfs n b).1 → p = " " ∨ ∃ s, s ∈ textPayloads n ∧ p = s.toLower) ∧
    (p ∈ (dfs n b).2 → p = " " ∨ (∃ s, s ∈ textPayloads n ∧ p = s.toLower) ∨
      ∃ nm, nm ∈ nodeNames n ∧ p = nm ++ " ") :=
  ⟨dfs_plain_pieces n b p, dfs_math_pieces n b p⟩

/-- C3 witness: the separator piece of a group node is covered by the first
component of the amended statement. -/
theorem c3_stream_pieces_witness :
    ((r" ") ∈ (dfs (DNode.node (r"bgroup") DNodeList.nil) false).1) ∧
    ((r" ") = " " ∨ ∃ s, s ∈ textPayloads (DNode.node (r"bgroup") DNodeList.nil) ∧
      (r" ") = s.toLower) :=
  ⟨by decide, (c3_stream_pieces (DNode.node (r"bgroup") DNodeList.nil) false (r" ")).1 (by decide)⟩

/-- C4: for every subtree rooted at a math environment node and either
incoming context, the subtree appends nothing to the plain-text stream, and
the lowercased payload of every text descendant, at any depth, is appended to
the math-text stream (the in-math context, once true, is inherited by all
descendants). -/
theorem c4_math_inheritance (cs : DNodeList) (b : Bool) :
    (dfs (DNode.node (r"math") cs) b).1 = [] ∧
    ∀ s, s ∈ textPayloads (DNode.node (r"math") cs) →
      s.toLower ∈ (dfs (DNode.node (r"math") cs) b).2 := by
  constructor
  · cases b
    · exact dfsList_true_plain_nil cs
    · exact dfsList_true_plain_nil cs
  · intro s hs
    simp only [textPayloads] at hs
    have h2 := dfsList_true_payload_mem cs s hs
    cases b
    · exact List.mem_append_right [" "] h2
    · exact List.mem_append_right [(r"math") ++ " "] h2

/-- C4 witness: a text node nested directly below a math node. -/
theorem c4_math_inheritance_witness :
    ((r"A") ∈ textPayloads (DNode.node (r"math")
        (DNodeList.cons (DNode.text (r"A")) DNodeList.nil))) ∧
    (r"A").toLower ∈ (dfs (DNode.node (r"math")
        (DNodeList.cons (DNode.text (r"A")) DNodeList.nil)) false).2 :=
  ⟨by decide,
    (c4_math_inheritance (DNodeList.cons (DNode.text (r"A")) DNodeList.nil) false).2
      (r"A") (by decide)⟩

/-- C5: the plain-text detector with dictionary the/cat/sat on the text
`the cat sat on 42 mats` (math text empty) classifies exactly 42 (leading
digit) as missing math mode and exactly mats and on as misspelled, and
emits exactly the two findings with each list sorted and deduplicated
(`msgMisspelled` and `msgMissingMath` render the Python repr of the sorted
lists). -/
theorem c5_spelling_split :
    checkPlainText (some [r"the", r"cat", r"sat"]) (r"the cat sat on 42 mats")
        = ([r"on", r"mats"], [r"42"]) ∧
    textDetectorWarnings (some [r"the", r"cat", r"sat"]) (r"problem.tex")
        (r"the cat sat on 42 mats") (r"") =
      [((r"problem.tex"), msgMisspelled [r"mats", r"on"]),
       ((r"problem.tex"), msgMissingMath [r"42"])] :=
  ⟨by decide, by decide⟩

/-- C6: the math-formatting detector on `there are 12,34 items and 20000
total` matches exactly the malformed thousands group 12,34 and the bare
five-digit run 20000, and reports them as one `incorrect math` finding with
the set sorted and deduplicated. -/
theorem c6_incorrect_math :
    checkMathText (r"there are 12,34 items and 20000 total") = [r"12,34", r"20000"] ∧
    textDetectorWarnings none (r"problem.tex") (r"")
        (r"there are 12,34 items and 20000 total") =
      [((r"problem.tex"), msgIncorrectMath [r"12,34", r"20000"])] :=
  ⟨by decide, by decide⟩

/-- C7: every line-level stylistic check produces at most one finding per
document however many lines match, and the content of each line from its
first unescaped percent sign onward never influences the findings (removing
it gives the same output). -/
theorem c7_line_checks (lines : List (List Char)) :
    (∀ msg, List.count msg (checkStatementLines lines) ≤ 1) ∧
    checkStatementLines (lines.map truncAtUnescapedPct) = checkStatementLines lines := by
  constructor
  · intro msg
    have h1 := count_filterMap_if_le regexChecks (fun pr => lines.any pr.1) msg
    have hnd : (regexChecks.map Prod.snd).Nodup := by decide
    have h2 : List.count msg (regexChecks.map Prod.snd) ≤ 1 :=
      List.nodup_iff_count_le_one.1 hnd msg
    exact le_trans h1 h2
  · unfold checkStatementLines
    refine filterMap_if_congr (fun pr => (lines.map truncAtUnescapedPct).any pr.1)
      (fun pr => lines.any pr.1) regexChecks ?_
    intro x hx
    fin_cases hx
    · exact any_search_trunc matchQuote matchQuote_pct lines
    · exact any_search_trunc matchIG matchIG_pct lines
    · exact any_search_trunc matchDots matchDots_pct lines
    · exact any_search_trunc matchFloating matchFloating_pct lines
    · exact any_search_trunc matchTimes matchTimes_pct lines

/-- C8: tokenization is idempotent: joining the set of tokens of any string
with single spaces and tokenizing the result yields the same set of tokens
(here even the same deduplicated list). -/
theorem c8_tokenizer_idempotent (s w : String) :
    w ∈ tokens (rejoinTokens s) ↔ w ∈ tokens s := by
  have h1 : ∀ t ∈ (tokensL s.data).dedup, t ≠ [] ∧ ∀ c ∈ t, isSpaceChar c = false :=
    fun t ht => (tokensL_props s.data t (List.mem_dedup.1 ht)).2.2
  have hmain : tokensL (joinTokensL ((tokensL s.data).dedup)) = (tokensL s.data).dedup := by
    have h2 : splitRuns (joinTokensL ((tokensL s.data).dedup)) = (tokensL s.data).dedup :=
      splitRuns_join _ h1
    show (splitRuns (joinTokensL ((tokensL s.data).dedup))).filterMap trimRun
      = (tokensL s.data).dedup
    rw [h2]
    exact filterMap_trimRun_id _ (fun t ht =>
      ⟨(tokensL_props s.data t (List.mem_dedup.1 ht)).1,
       (tokensL_props s.data t (List.mem_dedup.1 ht)).2.1⟩)
  show w ∈ (tokensL (joinTokensL ((tokensL s.data).dedup))).map String.mk ↔
    w ∈ (tokensL s.data).map String.mk
  rw [hmain]
  constructor
  · intro h
    obtain ⟨t, ht, rfl⟩ := List.mem_map.1 h
    exact List.mem_map.2 ⟨t, List.mem_dedup.1 ht, rfl⟩
  · intro h
    obtain ⟨t, ht, rfl⟩ := List.mem_map.1 h
    exact List.mem_map.2 ⟨t, List.mem_dedup.2 ht, rfl⟩

/-- C9 counterexample: the declared configuration maps the key `a` to a
nested mapping while the schema maps `a` to the scalar string leaf `bc`, yet
the recursive call raises nothing: Python `in` on a string is substring
containment, `b` is a substring of `bc`, the declared value 1 under `b` is
not a dict, and the run ends with an empty log and no exception — neither a
TypeError nor a logged finding. -/
theorem c9_counterexample :
    checkMetadataRecursive (r"p")
      (Meta.dict (MetaEntries.cons (r"a")
        (Meta.dict (MetaEntries.cons (r"b") (Meta.val (Val.vint 1)) MetaEntries.nil))
        MetaEntries.nil))
      (Meta.dict (MetaEntries.cons (r"a") (Meta.val (Val.vstr (r"bc"))) MetaEntries.nil))
      (r"") = ([], none) := by decide

/-- C9 (amended): the checker is not total: whenever a declared key maps to a
non-empty nested mapping while the schema maps it to a non-string scalar
(here an integer), the recursive call performs the membership test on that
scalar and raises `TypeError` instead of emitting a finding (for a string
scalar the membership test is substring containment and no exception is
raised); and totality holds under the precondition that the schema is a
mapping at every path where the declared data is a mapping. -/
theorem c9_partiality :
    (∀ (problem path k k2 : String) (v2 : Meta) (kvs : MetaEntries) (n : Int),
      (checkMetadataRecursive problem
        (Meta.dict (MetaEntries.cons k
          (Meta.dict (MetaEntries.cons k2 v2 kvs)) MetaEntries.nil))
        (Meta.dict (MetaEntries.cons k (Meta.val (Val.vint n)) MetaEntries.nil)) path).2
        = some PyErr.typeError)
    ∧ (∀ (data default : Meta) (problem path : String),
        dataOK data = true → schemaAligned data default = true →
        (checkMetadataRecursive problem data default path).2 = none) := by
  constructor
  · intro problem path k k2 v2 kvs n
    have hin : (checkMetadataRecursive problem
        (Meta.dict (MetaEntries.cons k2 v2 kvs)) (Meta.val (Val.vint n))
        (fullKeyOf path k)).2 = some PyErr.typeError := rfl
    have hk : entriesHasKey (MetaEntries.cons k (Meta.val (Val.vint n)) MetaEntries.nil) k
        = true := by simp [entriesHasKey]
    have hl : entriesLookup (MetaEntries.cons k (Meta.val (Val.vint n)) MetaEntries.nil) k
        = some (Meta.val (Val.vint n)) := by simp [entriesLookup]
    simp only [checkMetadataRecursive, metaLoop, pyContains, hk, pyIndex, hl, hin]
  · exact fun data default problem path h1 h2 => checkMeta_total data default problem path h1 h2

/-- C9 witness: both parts of the amended statement at concrete inputs: an
integer schema leaf under a nested declared mapping raises `TypeError`, and
an aligned pair raises nothing. -/
theorem c9_partiality_witness :
    ((checkMetadataRecursive (r"p")
        (Meta.dict (MetaEntries.cons (r"a")
          (Meta.dict (MetaEntries.cons (r"b") (Meta.val (Val.vint 1)) MetaEntries.nil))
          MetaEntries.nil))
        (Meta.dict (MetaEntries.cons (r"a") (Meta.val (Val.vint 5)) MetaEntries.nil))
        (r"")).2 = some PyErr.typeError)
    ∧ ((checkMetadataRecursive (r"p")
        (Meta.dict (MetaEntries.cons (r"x") (Meta.val (Val.vint 1)) MetaEntries.nil))
        (Meta.dict MetaEntries.nil) (r"")).2 = none) :=
  ⟨c9_partiality.1 (r"p") (r"") (r"a") (r"b") (Meta.val (Val.vint 1)) MetaEntries.nil 5,
   c9_partiality.2 (Meta.dict (MetaEntries.cons (r"x") (Meta.val (Val.vint 1)) MetaEntries.nil))
     (Meta.dict MetaEntries.nil) (r"p") (r"") (by decide) (by decide)⟩

/-- C10: the per-lookup union mutates the stored language entry in place:
after the step, the language entry contains every word of the global set and
equals the union; the global entry itself is unchanged; and the store as a
whole is not unchanged across lookups (a concrete store differs after one
step). -/
theorem c10_dictionary_store_mutation :
    (∀ (store : List (String × List String)) (language : String) (s : List String),
      language ≠ globalTag → storeLookup store language = some s →
      storeLookup (dictionaryLookupStep store language).1 language
          = some (pyUnionList s ((storeLookup store globalTag).getD []))
        ∧ (∀ w ∈ (storeLookup store globalTag).getD [],
            w ∈ pyUnionList s ((storeLookup store globalTag).getD []))
        ∧ storeLookup (dictionaryLookupStep store language).1 globalTag
            = storeLookup store globalTag)
    ∧ (dictionaryLookupStep [((r"en"), ([] : List String)), (globalTag, [r"word"])] (r"en")).1
        ≠ [((r"en"), ([] : List String)), (globalTag, [r"word"])] := by
  constructor
  · intro store language s hne hs
    have hstep : (dictionaryLookupStep store language).1
        = storeUpdate store language
            (pyUnionList s ((storeLookup store globalTag).getD [])) := by
      simp only [dictionaryLookupStep, hs]
    refine ⟨?_, ?_, ?_⟩
    · rw [hstep]
      exact storeLookup_update_self store language _ s hs
    · intro w hw
      exact mem_pyUnionList_right w s _ hw
    · rw [hstep]
      exact storeLookup_update_other store language globalTag _ hne
  · decide

/-- C10 witness: the mutated language entry at a concrete store. -/
theorem c10_dictionary_store_mutation_witness :
    storeLookup (dictionaryLookupStep
        [((r"en"), [r"aa"]), (globalTag, [r"bb"])] (r"en")).1 (r"en")
      = some (pyUnionList [r"aa"]
          ((storeLookup [((r"en"), [r"aa"]), (globalTag, [r"bb"])] globalTag).getD [])) :=
  (c10_dictionary_store_mutation.1 [((r"en"), [r"aa"]), (globalTag, [r"bb"])]
    (r"en") [r"aa"] (by decide) (by decide)).1
